import Mathlib

/-!
# Verification of the melody-cipher codecs (`src/decoder.js`)

Shallow embedding of the two codecs of the repository:

* `encodeBase8`  — the base-8 letter/octal encoder (source lines 3–29);
* `decodeBase8`  — the base-8 decoder (source lines 67–103);
* `decodeBase12` — the base-N byte decoder (source lines 41–65).

JavaScript strings are modelled as `List Char`; a JS `undefined` array
element is modelled as `none : Option (List Char)`.  The JS helpers that
the source relies on (`String.prototype.trim`, `split('\n')`,
`split(/\s+/)`, `Array.prototype.join(' ')`, `Number.prototype.toString(8)`,
`String.prototype.padStart`, `String.fromCharCode`) are embedded by the
`js...` functions below, each following the ECMAScript behaviour on the
relevant inputs.
-/

namespace MelodyCipher

/-- The code points matched by the JS regular expression `\s` (also the set
trimmed by `String.prototype.trim`): ASCII whitespace, NBSP, the Unicode
space separators, the line separators and the BOM. -/
def jsWSCodes : List Nat :=
  [9, 10, 11, 12, 13, 32, 0xa0, 0x1680, 0x2000, 0x2001, 0x2002, 0x2003,
   0x2004, 0x2005, 0x2006, 0x2007, 0x2008, 0x2009, 0x200a, 0x2028, 0x2029,
   0x202f, 0x205f, 0x3000, 0xfeff]

/-- The character class of the JS regular expression `\s`. -/
def jsIsWS (c : Char) : Bool := jsWSCodes.contains c.toNat

/-- JS `String.prototype.trim`: drop leading and trailing `\s` characters. -/
def jsTrim (l : List Char) : List Char :=
  ((l.dropWhile jsIsWS).reverse.dropWhile jsIsWS).reverse

/-- JS `str.split(sep)` for a single-character separator: every occurrence of
`sep` ends a segment; `"".split(sep) = [""]`. -/
def jsSplitChar (sep : Char) : List Char → List (List Char)
  | [] => [[]]
  | c :: cs =>
    if c = sep then [] :: jsSplitChar sep cs
    else
      match jsSplitChar sep cs with
      | [] => [[c]]
      | seg :: segs => (c :: seg) :: segs

/-- JS `str.split(/\s+/)`: a maximal run of `\s` characters separates two
segments; a run at the start or the end of the string contributes an empty
segment, and `"".split(/\s+/) = [""]`. -/
def jsSplitWS : List Char → List (List Char)
  | [] => [[]]
  | c :: cs =>
    if jsIsWS c then
      match cs with
      | [] => [] :: jsSplitWS cs
      | c2 :: _ => if jsIsWS c2 then jsSplitWS cs else [] :: jsSplitWS cs
    else
      match jsSplitWS cs with
      | [] => [[c]]
      | seg :: segs => (c :: seg) :: segs

/-- Join a list of strings with a separator between consecutive elements:
the shape of both `Array.prototype.join` and of the decoders' per-line
accumulation (`if (li > 0) out += '\n'`). -/
def joinWith (sep : List Char) : List (List Char) → List Char
  | [] => []
  | [x] => x
  | x :: y :: rest => x ++ sep ++ joinWith sep (y :: rest)

/-- The cipher configuration: the ordered alphabet of note symbols.
(The `colors` table of the source is display-only and never read by the
codec logic, so it is omitted.) -/
structure CipherConfig where
  notes : List (List Char)

/-- The JS regular expression test `/[A-Za-z]/.test(ch)` on a single
character. -/
def isAsciiLetter (c : Char) : Bool :=
  (65 ≤ c.toNat && c.toNat ≤ 90) || (97 ≤ c.toNat && c.toNat ≤ 122)

/-- The character of an octal digit value, as produced by
`Number.prototype.toString(8)`. -/
def octChar (d : Nat) : Char := Char.ofNat (48 + d)

/-- `parseInt(ch, 8)` on a character that is an octal digit. -/
def octVal (c : Char) : Nat := c.toNat - 48

/-- Fuel-driven base-8 digit expansion (most significant digit first). -/
def toOctCore : Nat → Nat → List Char → List Char
  | 0, _, acc => acc
  | fuel + 1, n, acc =>
    if n < 8 then octChar n :: acc
    else toOctCore fuel (n / 8) (octChar (n % 8) :: acc)

/-- JS `code.toString(8)`: the base-8 digit string of a natural number. -/
def natToOct (n : Nat) : List Char := toOctCore (n + 1) n []

/-- JS `String.prototype.padStart(len, c)`. -/
def padStart (len : Nat) (c : Char) (s : List Char) : List Char :=
  List.replicate (len - s.length) c ++ s

/-- The octal-chunk loop of `encodeBase8` (source lines 21–25): walk the
octal digit string two characters at a time; for a dangling final digit the
companion `parseInt(oct[j+1], 8)` is `NaN`, so `config.notes[NaN]` is
`undefined` (modelled as `none`). -/
def encodeOct (notes : List (List Char)) : List Char → List (Option (List Char))
  | [] => []
  | [h] => [notes[octVal h]?, none]
  | h :: l :: rest => [notes[octVal h]?, notes[octVal l]?] ++ encodeOct notes rest

/-- `encodeBase8` (source lines 3–29): per input character emit `'/'` for a
space, a newline token for a newline, the pair `notes[idx/8], notes[idx%8]`
for an ASCII letter of index `idx = upper(ch) - 'A'`, and the octal chunks
of the character code otherwise. -/
def encodeBase8 (config : CipherConfig) (text : List Char) : List (Option (List Char)) :=
  List.flatten <| text.map fun ch =>
    if ch = ' ' then [some ['/']]
    else if ch = '\n' then [some ['\n']]
    else if isAsciiLetter ch then
      let idx := (Char.toUpper ch).toNat - 65
      if idx < 26 then [config.notes[idx / 8]?, config.notes[idx % 8]?]
      else []
    else
      encodeOct config.notes (padStart 3 '0' (natToOct ch.toNat))

/-- The `noteMap` lookup of the decoders: `noteMap[note] = i` is assigned
for `i` increasing, so for a duplicated note the later index wins; a token
that is no note yields `undefined` (modelled as `none`). -/
def noteIndex : List (List Char) → List Char → Option Nat
  | [], _ => none
  | n :: ns, tok =>
    match noteIndex ns tok with
    | some i => some (i + 1)
    | none => if n = tok then some 0 else none

/-- JS `String.fromCharCode`: the argument is reduced modulo 2^16.
(A code unit that is no Unicode scalar value has no `Char` counterpart and
is mapped to `'\0'` by `Char.ofNat`.) -/
def jsFromCharCode (n : Nat) : Char := Char.ofNat (n % 65536)

/-- The token walk of `decodeBase8` (source lines 75–100): `'/'` is a
space and advances by one; a lone trailing (or empty) token appends `'?'`
and stops the line; an unrecognized token in a pair appends `'?'` and
advances by two; a recognized pair yields `val = hi*8 + lo`, an uppercase
letter when `val < 26` and `'?'` otherwise. -/
def walkBase8 (notes : List (List Char)) : List (List Char) → List Char
  | [] => []
  | [hiTok] => if hiTok = ['/'] then [' '] else ['?']
  | hiTok :: loTok :: rest =>
    if hiTok = ['/'] then ' ' :: walkBase8 notes (loTok :: rest)
    else if hiTok = [] ∨ loTok = [] then ['?']
    else
      match noteIndex notes hiTok, noteIndex notes loTok with
      | some h, some l =>
        (if h * 8 + l < 26 then Char.ofNat (65 + (h * 8 + l)) else '?') ::
          walkBase8 notes rest
      | _, _ => '?' :: walkBase8 notes rest

/-- The per-line tokenizer of `decodeBase8` (source line 74):
`line.trim().split(/\s+/).filter(t => t.length > 0)`. -/
def tokenize8 (line : List Char) : List (List Char) :=
  (jsSplitWS (jsTrim line)).filter fun t => 0 < t.length

/-- `decodeBase8` (source lines 67–103): split into lines at `'\n'`,
tokenize and walk each line, and join the per-line outputs with `'\n'`. -/
def decodeBase8 (config : CipherConfig) (noteStr : List Char) : List Char :=
  joinWith ['\n'] <|
    (jsSplitChar '\n' noteStr).map fun line =>
      walkBase8 config.notes (tokenize8 line)

/-- The token walk of `decodeBase12` (source lines 49–62): tokens are taken
two at a time; a missing or empty token of the pair appends `'?'`, an
unrecognized token appends `'?'`, and a recognized pair appends
`String.fromCharCode(hi * notes.length + lo)`; the walk always continues. -/
def walkBase12 (notes : List (List Char)) : List (List Char) → List Char
  | [] => []
  | [_] => ['?']
  | hiTok :: loTok :: rest =>
    if hiTok = [] ∨ loTok = [] then '?' :: walkBase12 notes rest
    else
      match noteIndex notes hiTok, noteIndex notes loTok with
      | some h, some l =>
        jsFromCharCode (h * notes.length + l) :: walkBase12 notes rest
      | _, _ => '?' :: walkBase12 notes rest

/-- `decodeBase12` (source lines 41–65): trim the whole input, split into
lines, trim and whitespace-split each line (without dropping empty tokens),
walk the tokens pairwise and join the per-line outputs with `'\n'`. -/
def decodeBase12 (config : CipherConfig) (noteStr : List Char) : List Char :=
  joinWith ['\n'] <|
    (jsSplitChar '\n' (jsTrim noteStr)).map fun line =>
      walkBase12 config.notes (jsSplitWS (jsTrim line))

/-- JS `Array.prototype.join(' ')` on the encoder's output: `undefined`
elements become empty strings and elements are separated by single
spaces. -/
def jsJoin (seq : List (Option (List Char))) : List Char :=
  joinWith [' '] (seq.map fun o => o.getD [])

/-- The token pair sequence emitted by `encodeBase8` for a letters-only
input: for each letter of index `idx` the notes at `idx / 8` and `idx % 8`
(as plain tokens rather than optional ones). -/
def letterPairTokens (notes : List (List Char)) (s : List Char) : List (List Char) :=
  List.flatten <| s.map fun c =>
    [notes.getD (((Char.toUpper c).toNat - 65) / 8) [],
     notes.getD (((Char.toUpper c).toNat - 65) % 8) []]

/-- Flattening a list of explicit token pairs, the shape of the base-8
decoder's two-token steps. -/
def pairTokens (ps : List (List Char × List Char)) : List (List Char) :=
  List.flatten <| ps.map fun p => [p.1, p.2]

/-! ## Character-level helper lemmas -/

theorem charToNat_ofNat {n : Nat} (h : n < 55296) : (Char.ofNat n).toNat = n := by
  have hv : n.isValidChar := Or.inl h
  simp [Char.ofNat, hv, Char.ofNatAux, Char.toNat]
  rfl

theorem letter_facts {c : Char} (h : isAsciiLetter c = true) :
    (Char.toUpper c).toNat - 65 < 26 ∧
    Char.ofNat (65 + ((Char.toUpper c).toNat - 65)) = Char.toUpper c := by
  have h' : 65 ≤ c.toNat ∧ c.toNat ≤ 90 ∨ 97 ≤ c.toNat ∧ c.toNat ≤ 122 := by
    simpa [isAsciiLetter] using h
  rcases h' with ⟨h1, h2⟩ | ⟨h1, h2⟩
  · have hup : Char.toUpper c = c := by
      simp only [Char.toUpper]
      rw [if_neg]
      omega
    rw [hup]
    constructor
    · omega
    · have : 65 + (c.toNat - 65) = c.toNat := by omega
      rw [this, Char.ofNat_toNat]
  · have hup : Char.toUpper c = Char.ofNat (c.toNat - 32) := by
      simp only [Char.toUpper]
      rw [if_pos]
      omega
    have htn : (Char.ofNat (c.toNat - 32)).toNat = c.toNat - 32 :=
      charToNat_ofNat (by omega)
    rw [hup, htn]
    constructor
    · omega
    · have : 65 + (c.toNat - 32 - 65) = c.toNat - 32 := by omega
      rw [this]

/-! ## One-step equations for the splitters and walks -/

theorem jsSplitChar_nil (sep : Char) : jsSplitChar sep [] = [[]] := rfl

theorem jsSplitChar_cons_sep {sep : Char} (cs : List Char) :
    jsSplitChar sep (sep :: cs) = [] :: jsSplitChar sep cs := by
  conv_lhs => rw [jsSplitChar]
  simp

theorem jsSplitChar_cons_ne {sep c : Char} {cs seg : List Char} {segs : List (List Char)}
    (hc : c ≠ sep) (h : jsSplitChar sep cs = seg :: segs) :
    jsSplitChar sep (c :: cs) = (c :: seg) :: segs := by
  conv_lhs => rw [jsSplitChar]
  simp [hc, h]

theorem jsSplitChar_ne_nil (sep : Char) (l : List Char) : jsSplitChar sep l ≠ [] := by
  induction l with
  | nil => simp [jsSplitChar_nil]
  | cons c cs ih =>
    by_cases hc : c = sep
    · subst hc
      simp [jsSplitChar_cons_sep]
    · cases h : jsSplitChar sep cs with
      | nil => exact absurd h ih
      | cons seg segs => simp [jsSplitChar_cons_ne hc h]

theorem jsSplitChar_no_sep {sep : Char} {l : List Char} (h : sep ∉ l) :
    jsSplitChar sep l = [l] := by
  induction l with
  | nil => rfl
  | cons c cs ih =>
    have hc : ¬c = sep := fun hh => h (hh ▸ List.mem_cons_self c cs)
    have hcs : sep ∉ cs := fun hh => h (List.mem_cons_of_mem c hh)
    rw [jsSplitChar_cons_ne hc (ih hcs)]

theorem jsSplitChar_append {sep : Char} {l1 l2 : List Char} (h : sep ∉ l1) :
    jsSplitChar sep (l1 ++ sep :: l2) = l1 :: jsSplitChar sep l2 := by
  induction l1 with
  | nil => simp [jsSplitChar_cons_sep]
  | cons c cs ih =>
    have hc : ¬c = sep := fun hh => h (hh ▸ List.mem_cons_self c cs)
    have hcs : sep ∉ cs := fun hh => h (List.mem_cons_of_mem c hh)
    rw [List.cons_append, jsSplitChar_cons_ne hc (ih hcs)]

theorem length_jsSplitChar (sep : Char) (l : List Char) :
    (jsSplitChar sep l).length = l.count sep + 1 := by
  induction l with
  | nil => simp [jsSplitChar_nil]
  | cons c cs ih =>
    by_cases hc : c = sep
    · subst hc
      simp [jsSplitChar_cons_sep, List.count_cons, ih]
    · cases h : jsSplitChar sep cs with
      | nil => exact absurd h (jsSplitChar_ne_nil sep cs)
      | cons seg segs =>
        rw [jsSplitChar_cons_ne hc h]
        have hlen : (seg :: segs).length = cs.count sep + 1 := h ▸ ih
        simp only [List.length_cons] at hlen ⊢
        simp [List.count_cons, hc, Ne.symm hc]
        omega

theorem jsSplitWS_nil : jsSplitWS [] = [[]] := rfl

theorem jsSplitWS_single_ws {c : Char} (hc : jsIsWS c = true) :
    jsSplitWS [c] = [[], []] := by
  simp [jsSplitWS, hc]

theorem jsSplitWS_ws_ws {c c2 : Char} {cs : List Char}
    (hc : jsIsWS c = true) (hc2 : jsIsWS c2 = true) :
    jsSplitWS (c :: c2 :: cs) = jsSplitWS (c2 :: cs) := by
  simp [jsSplitWS, hc, hc2]

theorem jsSplitWS_ws_nonws {c c2 : Char} {cs : List Char}
    (hc : jsIsWS c = true) (hc2 : jsIsWS c2 = false) :
    jsSplitWS (c :: c2 :: cs) = [] :: jsSplitWS (c2 :: cs) := by
  simp [jsSplitWS, hc, hc2]

theorem jsSplitWS_nonws {c : Char} {cs seg : List Char} {segs : List (List Char)}
    (hc : jsIsWS c = false) (h : jsSplitWS cs = seg :: segs) :
    jsSplitWS (c :: cs) = (c :: seg) :: segs := by
  simp [jsSplitWS, hc, h]

theorem jsSplitWS_ne_nil (l : List Char) : jsSplitWS l ≠ [] := by
  induction l using jsSplitWS.induct with
  | case1 => simp [jsSplitWS_nil]
  | case2 c hc _ => simp [jsSplitWS_single_ws hc]
  | case3 c hc c2 cs hc2 ih => rw [jsSplitWS_ws_ws hc hc2]; exact ih
  | case4 c hc c2 cs hc2 ih =>
    rw [jsSplitWS_ws_nonws hc (Bool.not_eq_true _ ▸ hc2)]
    simp
  | case5 c cs hc h ih => exact absurd h ih
  | case6 c cs hc seg segs h ih =>
    simp [jsSplitWS_nonws (Bool.not_eq_true _ ▸ hc) h]

theorem jsSplitWS_token {t rest : List Char} {seg : List Char} {segs : List (List Char)}
    (ht : ∀ c ∈ t, jsIsWS c = false) (h : jsSplitWS rest = seg :: segs) :
    jsSplitWS (t ++ rest) = (t ++ seg) :: segs := by
  induction t with
  | nil => simpa using h
  | cons c t' ih =>
    have hc : jsIsWS c = false := ht c (List.mem_cons_self c t')
    have ht' : ∀ c' ∈ t', jsIsWS c' = false := fun c' hc' => ht c' (List.mem_cons_of_mem c hc')
    rw [List.cons_append, jsSplitWS_nonws hc (ih ht')]
    simp

theorem jsSplitWS_space_cons {c2 : Char} {cs : List Char} (h : jsIsWS c2 = false) :
    jsSplitWS (' ' :: c2 :: cs) = [] :: jsSplitWS (c2 :: cs) :=
  jsSplitWS_ws_nonws (by decide) h

theorem joinWith_cons {sep : List Char} {x : List Char} {ys : List (List Char)}
    (h : ys ≠ []) : joinWith sep (x :: ys) = x ++ sep ++ joinWith sep ys := by
  cases ys with
  | nil => exact absurd rfl h
  | cons y ys' => rfl

theorem joinWith_ne_nil {sep : List Char} {t : List Char} {ts : List (List Char)}
    (h : t ≠ []) : joinWith sep (t :: ts) ≠ [] := by
  cases ts with
  | nil => simpa [joinWith]
  | cons y ys' => simp [joinWith, h]

theorem mem_joinWith {sep : List Char} {toks : List (List Char)} {c : Char}
    (h : c ∈ joinWith sep toks) : c ∈ sep ∨ ∃ t ∈ toks, c ∈ t := by
  induction toks with
  | nil => simp [joinWith] at h
  | cons t ts ih =>
    cases ts with
    | nil =>
      right
      exact ⟨t, List.mem_cons_self t [], by simpa [joinWith] using h⟩
    | cons t2 ts2 =>
      rw [joinWith_cons (by simp)] at h
      rcases List.mem_append.1 h with h1 | h2
      · rcases List.mem_append.1 h1 with h3 | h4
        · exact Or.inr ⟨t, List.mem_cons_self t _, h3⟩
        · exact Or.inl h4
      · rcases ih h2 with h5 | ⟨u, hu, hcu⟩
        · exact Or.inl h5
        · exact Or.inr ⟨u, List.mem_cons_of_mem t hu, hcu⟩

theorem joinWith_single {sep x : List Char} : joinWith sep [x] = x := rfl

/-! ## Step lemmas for the decoder walks -/

theorem walkBase8_nil {notes : List (List Char)} : walkBase8 notes [] = [] := rfl

theorem walkBase8_single {notes : List (List Char)} {t : List Char} :
    walkBase8 notes [t] = if t = ['/'] then [' '] else ['?'] := rfl

theorem walkBase8_slash {notes : List (List Char)} {lo : List Char}
    {rest : List (List Char)} :
    walkBase8 notes (['/'] :: lo :: rest) = ' ' :: walkBase8 notes (lo :: rest) := by
  simp [walkBase8]

theorem walkBase8_pair_empty {notes : List (List Char)} {hi lo : List Char}
    {rest : List (List Char)} (hhi : hi ≠ ['/']) (h : hi = [] ∨ lo = []) :
    walkBase8 notes (hi :: lo :: rest) = ['?'] := by
  simp [walkBase8, hhi, h]

theorem walkBase8_pair_known {notes : List (List Char)} {hi lo : List Char}
    {rest : List (List Char)} {h l : Nat}
    (hhi : hi ≠ ['/']) (h1 : hi ≠ []) (h2 : lo ≠ [])
    (hh : noteIndex notes hi = some h) (hl : noteIndex notes lo = some l) :
    walkBase8 notes (hi :: lo :: rest) =
      (if h * 8 + l < 26 then Char.ofNat (65 + (h * 8 + l)) else '?') ::
        walkBase8 notes rest := by
  simp [walkBase8, hhi, h1, h2, hh, hl]

theorem walkBase8_pair_unknown {notes : List (List Char)} {hi lo : List Char}
    {rest : List (List Char)}
    (hhi : hi ≠ ['/']) (h1 : hi ≠ []) (h2 : lo ≠ [])
    (hunk : noteIndex notes hi = none ∨ noteIndex notes lo = none) :
    walkBase8 notes (hi :: lo :: rest) = '?' :: walkBase8 notes rest := by
  rcases hunk with h | h
  · simp [walkBase8, hhi, h1, h2, h]
  · cases hh : noteIndex notes hi <;> simp [walkBase8, hhi, h1, h2, h, hh]

theorem walkBase12_nil {notes : List (List Char)} : walkBase12 notes [] = [] := rfl

theorem walkBase12_single {notes : List (List Char)} {t : List Char} :
    walkBase12 notes [t] = ['?'] := rfl

theorem walkBase12_pair_empty {notes : List (List Char)} {hi lo : List Char}
    {rest : List (List Char)} (h : hi = [] ∨ lo = []) :
    walkBase12 notes (hi :: lo :: rest) = '?' :: walkBase12 notes rest := by
  simp [walkBase12, h]

theorem walkBase12_pair_known {notes : List (List Char)} {hi lo : List Char}
    {rest : List (List Char)} {h l : Nat}
    (h1 : hi ≠ []) (h2 : lo ≠ [])
    (hh : noteIndex notes hi = some h) (hl : noteIndex notes lo = some l) :
    walkBase12 notes (hi :: lo :: rest) =
      jsFromCharCode (h * notes.length + l) :: walkBase12 notes rest := by
  simp [walkBase12, h1, h2, hh, hl]

theorem walkBase12_pair_unknown {notes : List (List Char)} {hi lo : List Char}
    {rest : List (List Char)}
    (hunk : noteIndex notes hi = none ∨ noteIndex notes lo = none) :
    walkBase12 notes (hi :: lo :: rest) = '?' :: walkBase12 notes rest := by
  by_cases h1 : hi = [] ∨ lo = []
  · exact walkBase12_pair_empty h1
  · push_neg at h1
    rcases hunk with h | h
    · simp [walkBase12, h1.1, h1.2, h]
    · cases hh : noteIndex notes hi <;> simp [walkBase12, h1.1, h1.2, h, hh]

/-! ## `noteIndex` lemmas -/

theorem noteIndex_of_not_mem {notes : List (List Char)} {tok : List Char}
    (h : tok ∉ notes) : noteIndex notes tok = none := by
  induction notes with
  | nil => rfl
  | cons n ns ih =>
    have hn : ¬n = tok := fun hh => h (hh ▸ List.mem_cons_self n ns)
    have hns : tok ∉ ns := fun hh => h (List.mem_cons_of_mem n hh)
    simp [noteIndex, ih hns, hn]

theorem noteIndex_getElem {notes : List (List Char)} (hd : notes.Nodup)
    {i : Nat} (hi : i < notes.length) : noteIndex notes notes[i] = some i := by
  induction notes generalizing i with
  | nil => simp at hi
  | cons n ns ih =>
    rcases List.nodup_cons.1 hd with ⟨hn, hns⟩
    cases i with
    | zero =>
      have : noteIndex ns n = none := noteIndex_of_not_mem hn
      simp [noteIndex, this]
    | succ j =>
      have hj : j < ns.length := by simpa using hi
      have : noteIndex ns ns[j] = some j := ih hns hj
      simp [noteIndex, this]

theorem noteIndex_lt_length {notes : List (List Char)} {tok : List Char} {i : Nat}
    (h : noteIndex notes tok = some i) : i < notes.length := by
  induction notes generalizing i with
  | nil => simp [noteIndex] at h
  | cons n ns ih =>
    simp only [noteIndex] at h
    cases hrec : noteIndex ns tok with
    | some j =>
      rw [hrec] at h
      obtain rfl : j + 1 = i := by simpa using h
      have := ih hrec
      simp
      omega
    | none =>
      rw [hrec] at h
      by_cases hn : n = tok
      · simp [hn] at h
        simp [← h]
      · simp [hn] at h

/-! ## Trim lemmas -/

theorem dropWhile_eq_self_of_head {p : Char → Bool} {l : List Char}
    (h : ∀ c, l.head? = some c → p c = false) : l.dropWhile p = l := by
  cases l with
  | nil => rfl
  | cons c cs =>
    have := h c rfl
    simp [List.dropWhile_cons, this]

theorem jsTrim_nil : jsTrim [] = [] := rfl

theorem jsTrim_eq_self {l : List Char}
    (h1 : ∀ c, l.head? = some c → jsIsWS c = false)
    (h2 : ∀ c, l.getLast? = some c → jsIsWS c = false) : jsTrim l = l := by
  unfold jsTrim
  rw [dropWhile_eq_self_of_head h1]
  rw [dropWhile_eq_self_of_head (by simpa using h2)]
  exact l.reverse_reverse

theorem jsTrim_cons_ws {c : Char} {l : List Char} (hc : jsIsWS c = true) :
    jsTrim (c :: l) = jsTrim l := by
  simp [jsTrim, List.dropWhile_cons, hc]

theorem jsTrim_append_ws {c : Char} {l : List Char} (hc : jsIsWS c = true) :
    jsTrim (l ++ [c]) = jsTrim l := by
  unfold jsTrim
  rw [List.dropWhile_append]
  by_cases h : (l.dropWhile jsIsWS).isEmpty
  · rw [if_pos h]
    have hl : l.dropWhile jsIsWS = [] := by simpa [List.isEmpty_iff] using h
    simp [List.dropWhile_cons, hc, hl]
  · rw [if_neg h]
    rw [List.reverse_append]
    simp [List.dropWhile_cons, hc]

/-! ## Tokenizing a space-joined token list -/

theorem joinWith_cons_eq_append {sep x : List Char} {ys : List (List Char)} :
    ∃ z, joinWith sep (x :: ys) = x ++ z := by
  cases ys with
  | nil => exact ⟨[], by simp [joinWith_single]⟩
  | cons y ys' => exact ⟨sep ++ joinWith sep (y :: ys'), by simp [joinWith]⟩

theorem joinWith_good_head {toks : List (List Char)}
    (h2 : ∀ t ∈ toks, t ≠ [] ∧ ∀ c ∈ t, jsIsWS c = false) :
    ∀ c, (joinWith [' '] toks).head? = some c → jsIsWS c = false := by
  intro c hc
  cases toks with
  | nil => simp [joinWith] at hc
  | cons t ts =>
    rcases h2 t (List.mem_cons_self t ts) with ⟨hne, hws⟩
    obtain ⟨z, hz⟩ := @joinWith_cons_eq_append [' '] t ts
    rw [hz] at hc
    cases t with
    | nil => exact absurd rfl hne
    | cons a t' =>
      simp only [List.cons_append, List.head?_cons, Option.some.injEq] at hc
      exact hc ▸ hws a (List.mem_cons_self a t')

theorem joinWith_good_last {toks : List (List Char)}
    (h2 : ∀ t ∈ toks, t ≠ [] ∧ ∀ c ∈ t, jsIsWS c = false) :
    ∀ c, (joinWith [' '] toks).getLast? = some c → jsIsWS c = false := by
  induction toks with
  | nil => intro c hc; simp [joinWith] at hc
  | cons t ts ih =>
    intro c hc
    cases ts with
    | nil =>
      rw [joinWith_single] at hc
      exact (h2 t (List.mem_cons_self t [])).2 c (List.mem_of_getLast?_eq_some hc)
    | cons t2 ts2 =>
      have h2' : ∀ u ∈ t2 :: ts2, u ≠ [] ∧ ∀ c' ∈ u, jsIsWS c' = false :=
        fun u hu => h2 u (List.mem_cons_of_mem t hu)
      have hJne : joinWith [' '] (t2 :: ts2) ≠ [] :=
        joinWith_ne_nil (h2' t2 (List.mem_cons_self t2 ts2)).1
      obtain ⟨d, hd⟩ : ∃ d, (joinWith [' '] (t2 :: ts2)).getLast? = some d := by
        cases hl : (joinWith [' '] (t2 :: ts2)).getLast? with
        | none => exact absurd (List.getLast?_eq_none_iff.1 hl) hJne
        | some d => exact ⟨d, rfl⟩
      have : joinWith [' '] (t :: t2 :: ts2) = t ++ ([' '] ++ joinWith [' '] (t2 :: ts2)) := by
        rw [joinWith_cons (by simp)]
        simp [List.append_assoc]
      rw [this, List.getLast?_append, List.getLast?_append, hd] at hc
      simp only [Option.or_some, Option.some.injEq] at hc
      exact hc ▸ ih h2' d hd

theorem nl_not_mem_joinWith {toks : List (List Char)}
    (h2 : ∀ t ∈ toks, t ≠ [] ∧ ∀ c ∈ t, jsIsWS c = false) :
    '\n' ∉ joinWith [' '] toks := by
  intro h
  rcases mem_joinWith h with h' | ⟨t, ht, hc⟩
  · simp at h'
  · have := (h2 t ht).2 '\n' hc
    have hnl : jsIsWS '\n' = true := by decide
    rw [hnl] at this
    exact Bool.noConfusion this

theorem jsSplitWS_joinWith {toks : List (List Char)} (h1 : toks ≠ [])
    (h2 : ∀ t ∈ toks, t ≠ [] ∧ ∀ c ∈ t, jsIsWS c = false) :
    jsSplitWS (joinWith [' '] toks) = toks := by
  induction toks with
  | nil => exact absurd rfl h1
  | cons t ts ih =>
    have hgt := h2 t (List.mem_cons_self t ts)
    cases ts with
    | nil =>
      rw [joinWith_single]
      have h0 : jsSplitWS (t ++ []) = (t ++ []) :: [] := jsSplitWS_token hgt.2 jsSplitWS_nil
      simpa using h0
    | cons t2 ts2 =>
      have h2' : ∀ u ∈ t2 :: ts2, u ≠ [] ∧ ∀ c ∈ u, jsIsWS c = false :=
        fun u hu => h2 u (List.mem_cons_of_mem t hu)
      have hJ : jsSplitWS (joinWith [' '] (t2 :: ts2)) = t2 :: ts2 := ih (by simp) h2'
      rcases h2' t2 (List.mem_cons_self t2 ts2) with ⟨hne2, hws2⟩
      obtain ⟨c2, t2', rfl⟩ : ∃ c2 t2', t2 = c2 :: t2' := by
        cases t2 with
        | nil => exact absurd rfl hne2
        | cons a b => exact ⟨a, b, rfl⟩
      obtain ⟨z, hz⟩ := @joinWith_cons_eq_append [' '] (c2 :: t2') ts2
      have hc2 : jsIsWS c2 = false := hws2 c2 (List.mem_cons_self c2 t2')
      have hstep : jsSplitWS (' ' :: joinWith [' '] ((c2 :: t2') :: ts2)) =
          [] :: jsSplitWS (joinWith [' '] ((c2 :: t2') :: ts2)) := by
        rw [hz]
        exact jsSplitWS_space_cons hc2
      have hJoin : joinWith [' '] (t :: (c2 :: t2') :: ts2) =
          t ++ (' ' :: joinWith [' '] ((c2 :: t2') :: ts2)) := by
        rw [joinWith_cons (by simp)]
        simp [List.append_assoc]
      rw [hJoin, jsSplitWS_token hgt.2 (hstep.trans (by rw [hJ]))]
      simp

theorem tokenize8_eq_of_trim_eq {l1 l2 : List Char} (h : jsTrim l1 = jsTrim l2) :
    tokenize8 l1 = tokenize8 l2 := by
  unfold tokenize8
  rw [h]

theorem tokenize8_joinWith {toks : List (List Char)} (h1 : toks ≠ [])
    (h2 : ∀ t ∈ toks, t ≠ [] ∧ ∀ c ∈ t, jsIsWS c = false) :
    tokenize8 (joinWith [' '] toks) = toks := by
  unfold tokenize8
  rw [jsTrim_eq_self (joinWith_good_head h2) (joinWith_good_last h2),
    jsSplitWS_joinWith h1 h2]
  rw [List.filter_eq_self.mpr]
  intro a ha
  have := (h2 a ha).1
  simpa [List.length_pos] using this

theorem tokenize8_joinWith_spaceR {toks : List (List Char)} (h1 : toks ≠ [])
    (h2 : ∀ t ∈ toks, t ≠ [] ∧ ∀ c ∈ t, jsIsWS c = false) :
    tokenize8 (joinWith [' '] toks ++ [' ']) = toks := by
  rw [tokenize8_eq_of_trim_eq (jsTrim_append_ws (by decide))]
  exact tokenize8_joinWith h1 h2

theorem tokenize8_joinWith_spaceL {toks : List (List Char)} (h1 : toks ≠ [])
    (h2 : ∀ t ∈ toks, t ≠ [] ∧ ∀ c ∈ t, jsIsWS c = false) :
    tokenize8 (' ' :: joinWith [' '] toks) = toks := by
  rw [tokenize8_eq_of_trim_eq (jsTrim_cons_ws (by decide))]
  exact tokenize8_joinWith h1 h2

/-! ## Octal digit string lemmas -/

theorem octChar_zero : octChar 0 = '0' := rfl

theorem octVal_octChar {d : Nat} (h : d < 8) : octVal (octChar d) = d := by
  interval_cases d <;> decide

theorem toOctCore_lt8 {fuel n : Nat} (acc : List Char) (hf : 0 < fuel) (h : n < 8) :
    toOctCore fuel n acc = octChar n :: acc := by
  cases fuel with
  | zero => omega
  | succ f => simp [toOctCore, h]

theorem natToOct_lt8 {n : Nat} (h : n < 8) : natToOct n = [octChar n] :=
  toOctCore_lt8 [] (by omega) h

theorem natToOct_lt64 {n : Nat} (h8 : 8 ≤ n) (h : n < 64) :
    natToOct n = [octChar (n / 8), octChar (n % 8)] := by
  unfold natToOct
  have hn : ¬n < 8 := by omega
  simp only [toOctCore, hn, if_false]
  exact toOctCore_lt8 _ (by omega) (by omega)

theorem natToOct_lt512 {n : Nat} (h64 : 64 ≤ n) (h : n < 512) :
    natToOct n = [octChar (n / 64), octChar (n / 8 % 8), octChar (n % 8)] := by
  unfold natToOct
  have hn : ¬n < 8 := by omega
  simp only [toOctCore, hn, if_false]
  obtain ⟨m, rfl⟩ : ∃ m, n = m + 1 := ⟨n - 1, by omega⟩
  have hn8 : ¬(m + 1) / 8 < 8 := by omega
  simp only [toOctCore, hn8, if_false]
  rw [toOctCore_lt8 _ (by omega) (by omega)]
  rw [Nat.div_div_eq_div_mul]

theorem padded_oct {n : Nat} (h : n < 512) :
    padStart 3 '0' (natToOct n) =
      [octChar (n / 64), octChar (n / 8 % 8), octChar (n % 8)] := by
  rcases Nat.lt_or_ge n 8 with h8 | h8
  · rw [natToOct_lt8 h8]
    have e1 : n / 64 = 0 := by omega
    have e2 : n / 8 % 8 = 0 := by omega
    have e3 : n % 8 = n := by omega
    rw [e1, e2, e3, ← octChar_zero]
    rfl
  · rcases Nat.lt_or_ge n 64 with h64 | h64
    · rw [natToOct_lt64 h8 h64]
      have e1 : n / 64 = 0 := by omega
      have e2 : n / 8 % 8 = n / 8 := by omega
      rw [e1, e2, ← octChar_zero]
      rfl
    · rw [natToOct_lt512 h64 h]
      rfl

theorem encodeOct_three {notes : List (List Char)} {a b c : Char} :
    encodeOct notes [a, b, c] =
      [notes[octVal a]?, notes[octVal b]?, notes[octVal c]?, none] := rfl

theorem encodeBase8_single_other {config : CipherConfig} {c : Char}
    (h1 : ¬c = ' ') (h2 : ¬c = '\n') (h3 : isAsciiLetter c = false) :
    encodeBase8 config [c] =
      encodeOct config.notes (padStart 3 '0' (natToOct c.toNat)) := by
  simp [encodeBase8, h1, h2, h3]

/-! ## Output character invariants of the walks -/

theorem letterChar_facts {v : Nat} (h : v < 26) :
    'A' ≤ Char.ofNat (65 + v) ∧ Char.ofNat (65 + v) ≤ 'Z' ∧
      Char.ofNat (65 + v) ≠ '\n' := by
  interval_cases v <;> exact ⟨by decide, by decide, by decide⟩

theorem walkBase8_chars {notes : List (List Char)} {ts : List (List Char)} :
    ∀ c ∈ walkBase8 notes ts,
      c = ' ' ∨ c = '?' ∨ ∃ v, v < 26 ∧ c = Char.ofNat (65 + v) := by
  induction ts using walkBase8.induct notes with
  | case1 => simp [walkBase8_nil]
  | case2 =>
    intro c hc
    rw [walkBase8_single] at hc
    simp at hc
    exact Or.inl hc
  | case3 x hx =>
    intro c hc
    rw [walkBase8_single, if_neg hx] at hc
    simp at hc
    exact Or.inr (Or.inl hc)
  | case4 y rest ih =>
    intro c hc
    rw [walkBase8_slash] at hc
    rcases List.mem_cons.1 hc with rfl | hc'
    · exact Or.inl rfl
    · exact ih c hc'
  | case5 x y rest hx hxy =>
    intro c hc
    rw [walkBase8_pair_empty hx hxy] at hc
    simp at hc
    exact Or.inr (Or.inl hc)
  | case6 x y rest hx hxy h l hl hh ih =>
    push_neg at hxy
    intro c hc
    rw [walkBase8_pair_known hx hxy.1 hxy.2 hh hl] at hc
    rcases List.mem_cons.1 hc with rfl | hc'
    · by_cases hv : h * 8 + l < 26
      · rw [if_pos hv]
        exact Or.inr (Or.inr ⟨h * 8 + l, hv, rfl⟩)
      · rw [if_neg hv]
        exact Or.inr (Or.inl rfl)
    · exact ih c hc'
  | case7 x y rest hx hxy hnone ih =>
    push_neg at hxy
    intro c hc
    have hunk : noteIndex notes x = none ∨ noteIndex notes y = none := by
      cases h1 : noteIndex notes x with
      | none => exact Or.inl rfl
      | some h =>
        cases h2 : noteIndex notes y with
        | none => exact Or.inr rfl
        | some l => exact (hnone h l h1 h2).elim
    rw [walkBase8_pair_unknown hx hxy.1 hxy.2 hunk] at hc
    rcases List.mem_cons.1 hc with rfl | hc'
    · exact Or.inr (Or.inl rfl)
    · exact ih c hc'

theorem walkBase8_no_nl {notes : List (List Char)} {ts : List (List Char)} :
    '\n' ∉ walkBase8 notes ts := by
  intro h
  rcases walkBase8_chars '\n' h with h' | h' | ⟨v, hv, h'⟩
  · exact absurd h' (by decide)
  · exact absurd h' (by decide)
  · exact (letterChar_facts hv).2.2 h'.symm

theorem walkBase12_chars {notes : List (List Char)} {ts : List (List Char)} :
    ∀ c ∈ walkBase12 notes ts,
      c = '?' ∨ ∃ code, code < notes.length * notes.length ∧
        c = jsFromCharCode code := by
  induction ts using walkBase12.induct notes with
  | case1 => simp [walkBase12_nil]
  | case2 x =>
    intro c hc
    rw [walkBase12_single] at hc
    simp at hc
    exact Or.inl hc
  | case3 x y rest hxy ih =>
    intro c hc
    rw [walkBase12_pair_empty hxy] at hc
    rcases List.mem_cons.1 hc with rfl | hc'
    · exact Or.inl rfl
    · exact ih c hc'
  | case4 x y rest hxy h l hl hh ih =>
    push_neg at hxy
    intro c hc
    rw [walkBase12_pair_known hxy.1 hxy.2 hh hl] at hc
    rcases List.mem_cons.1 hc with rfl | hc'
    · refine Or.inr ⟨h * notes.length + l, ?_, rfl⟩
      have hhb := noteIndex_lt_length hh
      have hlb := noteIndex_lt_length hl
      have e : (h + 1) * notes.length = h * notes.length + notes.length :=
        Nat.succ_mul h notes.length
      have le1 : (h + 1) * notes.length ≤ notes.length * notes.length :=
        Nat.mul_le_mul_right notes.length hhb
      omega
    · exact ih c hc'
  | case5 x y rest hxy hnone ih =>
    intro c hc
    have hunk : noteIndex notes x = none ∨ noteIndex notes y = none := by
      cases h1 : noteIndex notes x with
      | none => exact Or.inl rfl
      | some h =>
        cases h2 : noteIndex notes y with
        | none => exact Or.inr rfl
        | some l => exact (hnone h l h1 h2).elim
    rw [walkBase12_pair_unknown hunk] at hc
    rcases List.mem_cons.1 hc with rfl | hc'
    · exact Or.inl rfl
    · exact ih c hc'

/-! ## Newline counting -/

theorem count_nl_joinWith {outs : List (List Char)} (h : ∀ o ∈ outs, '\n' ∉ o) :
    (joinWith ['\n'] outs).count '\n' = outs.length - 1 := by
  induction outs with
  | nil => simp [joinWith]
  | cons o os ih =>
    cases os with
    | nil =>
      rw [joinWith_single]
      simp [List.count_eq_zero.2 (h o (List.mem_cons_self o []))]
    | cons o2 os2 =>
      rw [joinWith_cons (by simp)]
      have h' : ∀ u ∈ o2 :: os2, '\n' ∉ u := fun u hu => h u (List.mem_cons_of_mem o hu)
      rw [List.count_append, List.count_append]
      rw [List.count_eq_zero.2 (h o (List.mem_cons_self o (o2 :: os2)))]
      rw [ih h']
      simp
      omega

/-! ## Line structure of the base-8 decoder -/

theorem decodeBase8_single_line {config : CipherConfig} {l : List Char}
    (h : '\n' ∉ l) :
    decodeBase8 config l = walkBase8 config.notes (tokenize8 l) := by
  unfold decodeBase8
  rw [jsSplitChar_no_sep h]
  rfl

theorem decodeBase8_line_cons {config : CipherConfig} {line1 rest : List Char}
    (h : '\n' ∉ line1) :
    decodeBase8 config (line1 ++ '\n' :: rest) =
      walkBase8 config.notes (tokenize8 line1) ++ '\n' :: decodeBase8 config rest := by
  unfold decodeBase8
  rw [jsSplitChar_append h, List.map_cons]
  rw [joinWith_cons (by
    intro hmap
    exact jsSplitChar_ne_nil '\n' rest (List.map_eq_nil_iff.1 hmap))]
  simp [List.append_assoc]

/-! ## Encoder lemmas for letters, spaces and newlines -/

theorem encodeBase8_nil {config : CipherConfig} : encodeBase8 config [] = [] := rfl

theorem encodeBase8_cons {config : CipherConfig} {c : Char} {text : List Char} :
    encodeBase8 config (c :: text) =
      encodeBase8 config [c] ++ encodeBase8 config text := by
  simp [encodeBase8]

theorem encodeBase8_space {config : CipherConfig} :
    encodeBase8 config [' '] = [some ['/']] := by
  simp [encodeBase8]

theorem encodeBase8_newline {config : CipherConfig} :
    encodeBase8 config ['\n'] = [some ['\n']] := by
  simp [encodeBase8]

theorem encodeBase8_letter {config : CipherConfig} {c : Char}
    (h : isAsciiLetter c = true) :
    encodeBase8 config [c] =
      [config.notes[((Char.toUpper c).toNat - 65) / 8]?,
       config.notes[((Char.toUpper c).toNat - 65) % 8]?] := by
  have h1 : ¬c = ' ' := by rintro rfl; exact absurd h (by decide)
  have h2 : ¬c = '\n' := by rintro rfl; exact absurd h (by decide)
  have hidx := (letter_facts h).1
  simp [encodeBase8, h1, h2, h, hidx]

theorem getElem?_eq_some_getD {l : List (List Char)} {i : Nat} (h : i < l.length) :
    l[i]? = some (l.getD i []) := by
  rw [List.getElem?_eq_getElem h]
  simp [List.getD_eq_getElem?_getD, List.getElem?_eq_getElem h]

theorem getD_mem {l : List (List Char)} {i : Nat} (h : i < l.length) :
    l.getD i [] ∈ l := by
  rw [List.getD_eq_getElem?_getD, List.getElem?_eq_getElem h]
  exact List.getElem_mem h

theorem getD_noteIndex {notes : List (List Char)} (hd : notes.Nodup) {i : Nat}
    (h : i < notes.length) : noteIndex notes (notes.getD i []) = some i := by
  rw [List.getD_eq_getElem?_getD, List.getElem?_eq_getElem h]
  exact noteIndex_getElem hd h

theorem letterPairTokens_nil {notes : List (List Char)} :
    letterPairTokens notes [] = [] := rfl

theorem letterPairTokens_cons {notes : List (List Char)} {c : Char} {s : List Char} :
    letterPairTokens notes (c :: s) =
      notes.getD (((Char.toUpper c).toNat - 65) / 8) [] ::
        notes.getD (((Char.toUpper c).toNat - 65) % 8) [] ::
          letterPairTokens notes s := by
  simp [letterPairTokens]

theorem encodeBase8_letters_eq {config : CipherConfig} {s : List Char}
    (hlen : 8 ≤ config.notes.length)
    (hs : ∀ c ∈ s, isAsciiLetter c = true) :
    encodeBase8 config s = (letterPairTokens config.notes s).map some := by
  induction s with
  | nil => rfl
  | cons c s' ih =>
    have hc := hs c (List.mem_cons_self c s')
    have hs' : ∀ c' ∈ s', isAsciiLetter c' = true :=
      fun c' hc' => hs c' (List.mem_cons_of_mem c hc')
    have hidx := (letter_facts hc).1
    have hi1 : ((Char.toUpper c).toNat - 65) / 8 < config.notes.length := by omega
    have hi2 : ((Char.toUpper c).toNat - 65) % 8 < config.notes.length := by omega
    rw [encodeBase8_cons, encodeBase8_letter hc, letterPairTokens_cons,
      getElem?_eq_some_getD hi1, getElem?_eq_some_getD hi2, ih hs']
    simp

theorem letterPairTokens_mem {notes : List (List Char)} {s : List Char}
    {t : List Char} (hlen : 8 ≤ notes.length)
    (hs : ∀ c ∈ s, isAsciiLetter c = true)
    (ht : t ∈ letterPairTokens notes s) : t ∈ notes := by
  induction s with
  | nil => simp [letterPairTokens_nil] at ht
  | cons c s' ih =>
    have hc := hs c (List.mem_cons_self c s')
    have hs' : ∀ c' ∈ s', isAsciiLetter c' = true :=
      fun c' hc' => hs c' (List.mem_cons_of_mem c hc')
    have hidx := (letter_facts hc).1
    rw [letterPairTokens_cons] at ht
    rcases List.mem_cons.1 ht with rfl | ht'
    · exact getD_mem (by omega)
    · rcases List.mem_cons.1 ht' with rfl | ht''
      · exact getD_mem (by omega)
      · exact ih hs' ht''

theorem walkBase8_letterPairs {config : CipherConfig} {s : List Char}
    (hnd : config.notes.Nodup) (hlen : 8 ≤ config.notes.length)
    (hgood : ∀ t ∈ config.notes, t ≠ [] ∧ t ≠ ['/'] ∧ ∀ c ∈ t, jsIsWS c = false)
    (hs : ∀ c ∈ s, isAsciiLetter c = true) :
    walkBase8 config.notes (letterPairTokens config.notes s) =
      s.map Char.toUpper := by
  induction s with
  | nil => rfl
  | cons c s' ih =>
    have hc := hs c (List.mem_cons_self c s')
    have hs' : ∀ c' ∈ s', isAsciiLetter c' = true :=
      fun c' hc' => hs c' (List.mem_cons_of_mem c hc')
    obtain ⟨hidx, hofNat⟩ := letter_facts hc
    have hi1 : ((Char.toUpper c).toNat - 65) / 8 < config.notes.length := by omega
    have hi2 : ((Char.toUpper c).toNat - 65) % 8 < config.notes.length := by omega
    obtain ⟨hne1, hsl1, -⟩ := hgood _ (getD_mem hi1)
    obtain ⟨hne2, -, -⟩ := hgood _ (getD_mem hi2)
    rw [letterPairTokens_cons,
      walkBase8_pair_known hsl1 hne1 hne2 (getD_noteIndex hnd hi1) (getD_noteIndex hnd hi2)]
    have hval : ((Char.toUpper c).toNat - 65) / 8 * 8 +
        ((Char.toUpper c).toNat - 65) % 8 = (Char.toUpper c).toNat - 65 := by omega
    rw [hval, if_pos hidx, hofNat, ih hs']
    simp

/-- Round trip of the base-8 codec on a letters-only input, for a
configuration whose notes are distinct, at least eight, nonempty,
whitespace-free and distinct from the sentinel `'/'`. -/
theorem base8_roundtrip_letters (config : CipherConfig)
    (hnd : config.notes.Nodup) (hlen : 8 ≤ config.notes.length)
    (hgood : ∀ t ∈ config.notes, t ≠ [] ∧ t ≠ ['/'] ∧ ∀ c ∈ t, jsIsWS c = false)
    (s : List Char) (hs : ∀ c ∈ s, isAsciiLetter c = true) :
    decodeBase8 config (jsJoin (encodeBase8 config s)) = s.map Char.toUpper := by
  rw [encodeBase8_letters_eq hlen hs]
  have hjoin : jsJoin ((letterPairTokens config.notes s).map some) =
      joinWith [' '] (letterPairTokens config.notes s) := by
    unfold jsJoin
    rw [List.map_map]
    congr 1
    exact List.map_id'' (fun t => rfl) _
  rw [hjoin]
  cases s with
  | nil =>
    rw [letterPairTokens_nil]
    rw [show joinWith [' '] ([] : List (List Char)) = [] from rfl]
    rw [decodeBase8_single_line (by simp)]
    simp [tokenize8, jsTrim_nil, jsSplitWS_nil, walkBase8_nil]
  | cons c s' =>
    have hgoodtok : ∀ t ∈ letterPairTokens config.notes (c :: s'),
        t ≠ [] ∧ ∀ ch ∈ t, jsIsWS ch = false := by
      intro t ht
      obtain ⟨hne, -, hws⟩ := hgood t (letterPairTokens_mem hlen hs ht)
      exact ⟨hne, hws⟩
    have hne : letterPairTokens config.notes (c :: s') ≠ [] := by
      rw [letterPairTokens_cons]
      simp
    rw [decodeBase8_single_line (fun hmem => nl_not_mem_joinWith hgoodtok hmem)]
    rw [tokenize8_joinWith hne hgoodtok]
    exact walkBase8_letterPairs hnd hlen hgood hs

/-! ## Claims -/

/-- **C1** (amended): for every `CipherConfig` whose notes are pairwise
distinct, number at least 8, and are each nonempty, free of whitespace and
different from the sentinel token `"/"`, and every string of ASCII letters,
decoding the space-joined output of `encodeBase8` with `decodeBase8`
returns the upper-cased input; in particular encoding `"HI"` emits the four
symbols `notes[0]`, `notes[7]`, `notes[1]`, `notes[0]` and decoding them
returns `"HI"`. -/
theorem c1_base8_letter_roundtrip (config : CipherConfig)
    (hnd : config.notes.Nodup) (hlen : 8 ≤ config.notes.length)
    (hgood : ∀ t ∈ config.notes, t ≠ [] ∧ t ≠ ['/'] ∧ ∀ c ∈ t, jsIsWS c = false)
    (s : List Char) (hs : ∀ c ∈ s, isAsciiLetter c = true) :
    decodeBase8 config (jsJoin (encodeBase8 config s)) = s.map Char.toUpper ∧
    encodeBase8 config ['H', 'I'] =
      [config.notes[0]?, config.notes[7]?, config.notes[1]?, config.notes[0]?] ∧
    decodeBase8 config (jsJoin (encodeBase8 config ['H', 'I'])) = ['H', 'I'] := by
  refine ⟨base8_roundtrip_letters config hnd hlen hgood s hs, ?_, ?_⟩
  · rw [show ['H', 'I'] = 'H' :: ['I'] from rfl, encodeBase8_cons,
      encodeBase8_letter (by decide), encodeBase8_letter (by decide)]
    rw [show (Char.toUpper 'H').toNat - 65 = 7 from by decide,
      show (Char.toUpper 'I').toNat - 65 = 8 from by decide]
    norm_num
  · have h := base8_roundtrip_letters config hnd hlen hgood ['H', 'I'] (by decide)
    rw [h]
    decide

/-- **C1** counterexample to the claim as frozen: a configuration whose
eight distinct notes include the sentinel `"/"` satisfies the claim's
hypotheses, yet encoding and decoding the letter string `"A"` yields
`"  "` instead of `"A"`. -/
theorem c1_counterexample :
    ([['/'], ['a'], ['b'], ['c'], ['d'], ['e'], ['f'], ['g']] :
        List (List Char)).Nodup ∧
    8 ≤ ([['/'], ['a'], ['b'], ['c'], ['d'], ['e'], ['f'], ['g']] :
        List (List Char)).length ∧
    (∀ c ∈ ['A'], isAsciiLetter c = true) ∧
    decodeBase8 ⟨[['/'], ['a'], ['b'], ['c'], ['d'], ['e'], ['f'], ['g']]⟩
        (jsJoin (encodeBase8
          ⟨[['/'], ['a'], ['b'], ['c'], ['d'], ['e'], ['f'], ['g']]⟩ ['A'])) ≠
      ['A'].map Char.toUpper := by
  decide

/-- **C1** witness: the round trip evaluated at a concrete configuration
and the input `"hi"`. -/
theorem c1_witness :
    decodeBase8 ⟨[['C'], ['D'], ['E'], ['F'], ['G'], ['A'], ['B'], ['H']]⟩
        (jsJoin (encodeBase8
          ⟨[['C'], ['D'], ['E'], ['F'], ['G'], ['A'], ['B'], ['H']]⟩
          ['h', 'i'])) = ['H', 'I'] := by
  have h := c1_base8_letter_roundtrip
    ⟨[['C'], ['D'], ['E'], ['F'], ['G'], ['A'], ['B'], ['H']]⟩
    (by decide) (by decide) (by decide) ['h', 'i'] (by decide)
  rw [h.1]
  decide

/-- **C2** (amended): `decodeBase12` does emit `'?'` both for a missing
partner token and for an unrecognized symbol, in the same way the base-8
decoder does; an unknown symbol is checked against the note map and yields
the `'?'` placeholder rather than an undefined-index `NaN` output. -/
theorem c2_base12_placeholder (config : CipherConfig) (hiTok loTok : List Char)
    (rest : List (List Char))
    (hunk : noteIndex config.notes hiTok = none ∨
      noteIndex config.notes loTok = none) :
    walkBase12 config.notes (hiTok :: loTok :: rest) =
      '?' :: walkBase12 config.notes rest ∧
    ∀ t : List Char, walkBase12 config.notes [t] = ['?'] :=
  ⟨walkBase12_pair_unknown hunk, fun _ => walkBase12_single⟩

/-- **C2** counterexample to the claim as frozen: `decodeBase12` *does*
emit `'?'` for an unknown symbol (`"c a"` over the alphabet `a, b`) and for
a missing partner token (`"a"`). -/
theorem c2_counterexample :
    decodeBase12 ⟨[['a'], ['b']]⟩ ['c', ' ', 'a'] = ['?'] ∧
    decodeBase12 ⟨[['a'], ['b']]⟩ ['a'] = ['?'] := by
  decide

/-- **C2** witness: the placeholder behaviour evaluated on a concrete
unknown-symbol pair and a concrete lone token. -/
theorem c2_witness :
    walkBase12 [['a'], ['b']] [['c'], ['a']] = '?' :: walkBase12 [['a'], ['b']] [] ∧
    walkBase12 [['a'], ['b']] [['x']] = ['?'] :=
  ⟨(c2_base12_placeholder ⟨[['a'], ['b']]⟩ ['c'] ['a'] [] (by decide)).1,
   (c2_base12_placeholder ⟨[['a'], ['b']]⟩ ['c'] ['a'] [] (by decide)).2 ['x']⟩

/-- **C3**: for every character other than space, newline and ASCII letters
whose code is below 512, the 3-digit padded octal string is chunked two
characters at a time, and the dangling third digit is paired with an
absent companion: `encodeBase8` emits the three digit notes followed by an
undefined (`none`) element. -/
theorem c3_dangling_octal_chunk (config : CipherConfig) (c : Char)
    (h1 : c ≠ ' ') (h2 : c ≠ '\n') (h3 : isAsciiLetter c = false)
    (h4 : c.toNat < 512) :
    encodeBase8 config [c] =
      [config.notes[c.toNat / 64]?, config.notes[c.toNat / 8 % 8]?,
       config.notes[c.toNat % 8]?, none] := by
  rw [encodeBase8_single_other h1 h2 h3, padded_oct h4, encodeOct_three,
    octVal_octChar (by omega), octVal_octChar (by omega), octVal_octChar (by omega)]

/-- **C3** witness: encoding `'+'` (code 43, octal `053`) over a concrete
alphabet yields the notes of digits 0, 5, 3 followed by the undefined
element. -/
theorem c3_witness :
    encodeBase8 ⟨[['C'], ['D'], ['E'], ['F'], ['G'], ['A'], ['B'], ['H']]⟩ ['+'] =
      [some ['C'], some ['A'], some ['F'], none] := by
  have h := c3_dangling_octal_chunk
    ⟨[['C'], ['D'], ['E'], ['F'], ['G'], ['A'], ['B'], ['H']]⟩ '+'
    (by decide) (by decide) (by decide) (by decide)
  rw [h]
  decide

/-- **C4**: both decoders are total functions of the embedding and their
output degrades to inline `'?'` placeholders: every character of a
`decodeBase8` output is a newline, a space, `'?'` or an uppercase letter,
and every character of a `decodeBase12` output is a newline, `'?'`, or the
`String.fromCharCode` image of a two-digit base-N code. -/
theorem c4_decoders_never_fail (config : CipherConfig) (noteStr : List Char) :
    (∀ c ∈ decodeBase8 config noteStr,
      c = '\n' ∨ c = ' ' ∨ c = '?' ∨ ('A' ≤ c ∧ c ≤ 'Z')) ∧
    (∀ c ∈ decodeBase12 config noteStr,
      c = '\n' ∨ c = '?' ∨
        ∃ code, code < config.notes.length * config.notes.length ∧
          c = jsFromCharCode code) := by
  constructor
  · intro c hc
    unfold decodeBase8 at hc
    rcases mem_joinWith hc with hsep | ⟨o, ho, hco⟩
    · left
      simpa using hsep
    · obtain ⟨line, -, rfl⟩ := List.mem_map.1 ho
      rcases walkBase8_chars c hco with h | h | ⟨v, hv, rfl⟩
      · exact Or.inr (Or.inl h)
      · exact Or.inr (Or.inr (Or.inl h))
      · exact Or.inr (Or.inr (Or.inr
          ⟨(letterChar_facts hv).1, (letterChar_facts hv).2.1⟩))
  · intro c hc
    unfold decodeBase12 at hc
    rcases mem_joinWith hc with hsep | ⟨o, ho, hco⟩
    · left
      simpa using hsep
    · obtain ⟨line, -, rfl⟩ := List.mem_map.1 ho
      rcases walkBase12_chars c hco with h | ⟨code, hcode, rfl⟩
      · exact Or.inr (Or.inl h)
      · exact Or.inr (Or.inr ⟨code, hcode, rfl⟩)

/-- **C4** witness: the invariant evaluated on the `'?'` that
`decodeBase8` produces for the unknown token `"b"`. -/
theorem c4_witness :
    '?' = '\n' ∨ '?' = ' ' ∨ '?' = '?' ∨ ('A' ≤ '?' ∧ '?' ≤ 'Z') :=
  (c4_decoders_never_fail ⟨[['a']]⟩ ['b']).1 '?' (by decide)

/-- **C6**: an unrecognized token in a pair (whose first token is not the
sentinel `'/'`, both tokens nonempty as the tokenizer guarantees) appends
exactly one `'?'`, advances past the pair, and decoding continues with the
remaining tokens. -/
theorem c6_unknown_symbol_pair (config : CipherConfig) (hiTok loTok : List Char)
    (rest : List (List Char)) (hslash : hiTok ≠ ['/'])
    (h1 : hiTok ≠ []) (h2 : loTok ≠ [])
    (hunk : noteIndex config.notes hiTok = none ∨
      noteIndex config.notes loTok = none) :
    walkBase8 config.notes (hiTok :: loTok :: rest) =
      '?' :: walkBase8 config.notes rest :=
  walkBase8_pair_unknown hslash h1 h2 hunk

/-- **C6** witness: the unknown token `"x"` paired with the note `"a"`. -/
theorem c6_witness :
    walkBase8 [['a']] [['x'], ['a']] = '?' :: walkBase8 [['a']] [] :=
  c6_unknown_symbol_pair ⟨[['a']]⟩ ['x'] ['a'] [] (by decide) (by decide)
    (by decide) (by decide)

/-- **C9**: `decodeBase8` joins the per-line outputs with one newline
before every line except the first, so the output has exactly as many
newline characters as the input. -/
theorem c9_newline_count (config : CipherConfig) (s : List Char) :
    (decodeBase8 config s).count '\n' = s.count '\n' := by
  unfold decodeBase8
  rw [count_nl_joinWith (by
    intro o ho
    obtain ⟨line, -, rfl⟩ := List.mem_map.1 ho
    exact walkBase8_no_nl)]
  rw [List.length_map, length_jsSplitChar]
  omega

theorem pairTokens_nil : pairTokens [] = [] := rfl

theorem pairTokens_cons {p : List Char × List Char}
    {ps : List (List Char × List Char)} :
    pairTokens (p :: ps) = p.1 :: p.2 :: pairTokens ps := by
  simp [pairTokens]

/-- **C5**: a line whose token walk, after any number of complete two-token
steps, reaches a non-`'/'` trailing token with no partner appends exactly
one `'?'` and stops there; and each line is decoded independently, so the
lines after a newline are decoded exactly as they would be on their own. -/
theorem c5_odd_trailing_token (config : CipherConfig)
    (ps : List (List Char × List Char)) (t : List Char) (ht : t ≠ ['/'])
    (hps : ∀ p ∈ ps, p.1 ≠ ['/'] ∧ p.1 ≠ [] ∧ p.2 ≠ [])
    (line1 rest : List Char) (hline : '\n' ∉ line1) :
    walkBase8 config.notes (pairTokens ps ++ [t]) =
      walkBase8 config.notes (pairTokens ps) ++ ['?'] ∧
    decodeBase8 config (line1 ++ '\n' :: rest) =
      walkBase8 config.notes (tokenize8 line1) ++ '\n' :: decodeBase8 config rest := by
  refine ⟨?_, decodeBase8_line_cons hline⟩
  induction ps with
  | nil =>
    rw [pairTokens_nil, walkBase8_nil]
    simp [walkBase8_single, ht]
  | cons p ps' ih =>
    obtain ⟨hp1, hp2, hp3⟩ := hps p (List.mem_cons_self p ps')
    have hps' : ∀ q ∈ ps', q.1 ≠ ['/'] ∧ q.1 ≠ [] ∧ q.2 ≠ [] :=
      fun q hq => hps q (List.mem_cons_of_mem p hq)
    have ih' := ih hps'
    rw [pairTokens_cons, List.cons_append, List.cons_append]
    cases hn1 : noteIndex config.notes p.1 with
    | some h =>
      cases hn2 : noteIndex config.notes p.2 with
      | some l =>
        rw [walkBase8_pair_known hp1 hp2 hp3 hn1 hn2,
          walkBase8_pair_known hp1 hp2 hp3 hn1 hn2, ih']
        simp
      | none =>
        rw [walkBase8_pair_unknown hp1 hp2 hp3 (Or.inr hn2),
          walkBase8_pair_unknown hp1 hp2 hp3 (Or.inr hn2), ih']
        simp
    | none =>
      rw [walkBase8_pair_unknown hp1 hp2 hp3 (Or.inl hn1),
        walkBase8_pair_unknown hp1 hp2 hp3 (Or.inl hn1), ih']
      simp

/-- **C5** witness: a known pair followed by a trailing token, and the
independence of the line after a newline, both at concrete inputs. -/
theorem c5_witness :
    walkBase8 [['a'], ['b']] (pairTokens [(['a'], ['b'])] ++ [['x']]) =
      walkBase8 [['a'], ['b']] (pairTokens [(['a'], ['b'])]) ++ ['?'] ∧
    decodeBase8 ⟨[['a'], ['b']]⟩ (['a'] ++ '\n' :: ['b']) =
      walkBase8 [['a'], ['b']] (tokenize8 ['a']) ++ '\n' ::
        decodeBase8 ⟨[['a'], ['b']]⟩ ['b'] :=
  c5_odd_trailing_token ⟨[['a'], ['b']]⟩ [(['a'], ['b'])] ['x'] (by decide)
    (by decide) ['a'] ['b'] (by decide)

/-- **C7** (amended): for a `CipherConfig` with `B` distinct notes, each
nonempty and whitespace-free, and any character whose code is below both
`B * B` and 65536, decoding the space-separated pair
`notes[code / B]`, `notes[code % B]` with `decodeBase12` recovers the
one-character string of that code, i.e. the decoder computes
`code = index(hi) * B + index(lo)` and maps it through the ordinal-value
conversion. -/
theorem c7_base12_roundtrip (config : CipherConfig) (hnd : config.notes.Nodup)
    (hgood : ∀ t ∈ config.notes, t ≠ [] ∧ ∀ c ∈ t, jsIsWS c = false)
    (c : Char) (hlt : c.toNat < config.notes.length * config.notes.length)
    (hsmall : c.toNat < 65536) :
    decodeBase12 config
      (config.notes.getD (c.toNat / config.notes.length) [] ++
        ' ' :: config.notes.getD (c.toNat % config.notes.length) []) = [c] := by
  have hB : 0 < config.notes.length := by
    rcases Nat.eq_zero_or_pos config.notes.length with h0 | h
    · rw [h0] at hlt
      simp at hlt
    · exact h
  have hdiv : c.toNat / config.notes.length < config.notes.length :=
    (Nat.div_lt_iff_lt_mul hB).2 hlt
  have hmod : c.toNat % config.notes.length < config.notes.length :=
    Nat.mod_lt _ hB
  obtain ⟨hne1, hws1⟩ := hgood _ (getD_mem hdiv)
  obtain ⟨hne2, hws2⟩ := hgood _ (getD_mem hmod)
  have hgoodtok : ∀ t ∈ [config.notes.getD (c.toNat / config.notes.length) [],
      config.notes.getD (c.toNat % config.notes.length) []],
      t ≠ [] ∧ ∀ ch ∈ t, jsIsWS ch = false := by
    intro t ht
    rcases List.mem_cons.1 ht with rfl | ht'
    · exact ⟨hne1, hws1⟩
    · rcases List.mem_cons.1 ht' with rfl | ht''
      · exact ⟨hne2, hws2⟩
      · simp at ht''
  have hJ : config.notes.getD (c.toNat / config.notes.length) [] ++
      ' ' :: config.notes.getD (c.toNat % config.notes.length) [] =
      joinWith [' ']
        [config.notes.getD (c.toNat / config.notes.length) [],
         config.notes.getD (c.toNat % config.notes.length) []] := by
    simp [joinWith]
  rw [hJ]
  unfold decodeBase12
  rw [jsTrim_eq_self (joinWith_good_head hgoodtok) (joinWith_good_last hgoodtok)]
  rw [jsSplitChar_no_sep (nl_not_mem_joinWith hgoodtok)]
  rw [List.map_cons, List.map_nil, joinWith_single]
  rw [jsTrim_eq_self (joinWith_good_head hgoodtok) (joinWith_good_last hgoodtok)]
  rw [jsSplitWS_joinWith (by simp) hgoodtok]
  rw [walkBase12_pair_known hne1 hne2 (getD_noteIndex hnd hdiv)
    (getD_noteIndex hnd hmod), walkBase12_nil]
  have hda : c.toNat / config.notes.length * config.notes.length +
      c.toNat % config.notes.length = c.toNat := by
    have h := Nat.div_add_mod c.toNat config.notes.length
    rw [Nat.mul_comm] at h
    exact h
  rw [hda]
  unfold jsFromCharCode
  rw [Nat.mod_eq_of_lt hsmall, Char.ofNat_toNat]

/-- **C7** counterexample to the claim as frozen: two distinct notes of
which one contains a space break the round trip for the character of code
1 (which is below `B * B = 4`): decoding returns `"?"`. -/
theorem c7_counterexample :
    ([['a', ' '], ['b']] : List (List Char)).Nodup ∧
    (Char.ofNat 1).toNat < 2 * 2 ∧
    decodeBase12 ⟨[['a', ' '], ['b']]⟩
        (([['a', ' '], ['b']] : List (List Char)).getD ((Char.ofNat 1).toNat / 2) [] ++
          ' ' :: ([['a', ' '], ['b']] : List (List Char)).getD ((Char.ofNat 1).toNat % 2) []) ≠
      [Char.ofNat 1] := by
  decide

/-- **C7** witness: the code of `'+'` (43, below 64) over a concrete
8-note alphabet round-trips through the pair `notes[5]`, `notes[3]`. -/
theorem c7_witness :
    decodeBase12 ⟨[['C'], ['D'], ['E'], ['F'], ['G'], ['A'], ['B'], ['H']]⟩
      (([['C'], ['D'], ['E'], ['F'], ['G'], ['A'], ['B'], ['H']] :
          List (List Char)).getD ('+'.toNat / 8) [] ++
        ' ' :: ([['C'], ['D'], ['E'], ['F'], ['G'], ['A'], ['B'], ['H']] :
          List (List Char)).getD ('+'.toNat % 8) []) = ['+'] :=
  c7_base12_roundtrip ⟨[['C'], ['D'], ['E'], ['F'], ['G'], ['A'], ['B'], ['H']]⟩
    (by decide) (by decide) '+' (by decide) (by decide)

theorem mem_of_mem_jsSplitChar {sep : Char} {l : List Char} {seg : List Char}
    (hseg : seg ∈ jsSplitChar sep l) {c : Char} (hc : c ∈ seg) : c ∈ l := by
  induction l generalizing seg with
  | nil =>
    rw [jsSplitChar_nil] at hseg
    simp at hseg
    subst hseg
    simp at hc
  | cons a cs ih =>
    by_cases ha : a = sep
    · subst ha
      rw [jsSplitChar_cons_sep] at hseg
      rcases List.mem_cons.1 hseg with rfl | hseg'
      · simp at hc
      · exact List.mem_cons_of_mem a (ih hseg' hc)
    · cases hsp : jsSplitChar sep cs with
      | nil => exact absurd hsp (jsSplitChar_ne_nil sep cs)
      | cons s0 segs =>
        rw [jsSplitChar_cons_ne ha hsp] at hseg
        rcases List.mem_cons.1 hseg with rfl | hseg'
        · rcases List.mem_cons.1 hc with rfl | hc'
          · exact List.mem_cons_self c cs
          · exact List.mem_cons_of_mem a
              (ih (hsp ▸ List.mem_cons_self s0 segs) hc')
        · exact List.mem_cons_of_mem a
            (ih (hsp ▸ List.mem_cons_of_mem s0 hseg') hc)

theorem joinWith_replicate_nil (n : Nat) :
    joinWith ['\n'] (List.replicate (n + 1) ([] : List Char)) =
      List.replicate n '\n' := by
  induction n with
  | zero => rfl
  | succ m ih =>
    rw [List.replicate_succ]
    rw [joinWith_cons (by simp)]
    rw [ih]
    simp [List.replicate_succ]

/-- **C10** (amended): on an empty or whitespace-only input,
`decodeBase12` returns exactly `"?"` (after trimming, the single empty
line yields one empty token, treated as a missing pair), while
`decodeBase8` — which does not trim before splitting on newlines — returns
exactly the newline characters of the input (so the empty string whenever
the input has no newline). -/
theorem c10_ws_only_inputs (config : CipherConfig) (s : List Char)
    (hws : ∀ c ∈ s, jsIsWS c = true) :
    decodeBase12 config s = ['?'] ∧
    decodeBase8 config s = List.replicate (s.count '\n') '\n' := by
  constructor
  · have htrim : jsTrim s = [] := by
      have hin : s.dropWhile jsIsWS = [] :=
        List.dropWhile_eq_nil_iff.2 fun x hx => by simpa using hws x hx
      unfold jsTrim
      rw [hin]
      rfl
    unfold decodeBase12
    rw [htrim, jsSplitChar_nil, List.map_cons, List.map_nil, joinWith_single]
    rw [jsTrim_nil, jsSplitWS_nil, walkBase12_single]
  · unfold decodeBase8
    have hmap : (jsSplitChar '\n' s).map
        (fun line => walkBase8 config.notes (tokenize8 line)) =
        List.replicate (jsSplitChar '\n' s).length [] := by
      rw [List.eq_replicate_iff]
      refine ⟨by simp, ?_⟩
      intro b hb
      obtain ⟨line, hline, rfl⟩ := List.mem_map.1 hb
      have hlinews : ∀ c ∈ line, jsIsWS c = true :=
        fun c hc => hws c (mem_of_mem_jsSplitChar hline hc)
      have htrim : jsTrim line = [] := by
        have hin : line.dropWhile jsIsWS = [] :=
          List.dropWhile_eq_nil_iff.2 fun x hx => by simpa using hlinews x hx
        unfold jsTrim
        rw [hin]
        rfl
      rw [tokenize8, htrim, jsSplitWS_nil]
      rfl
    rw [hmap]
    have hlen : (jsSplitChar '\n' s).length = s.count '\n' + 1 :=
      length_jsSplitChar '\n' s
    rw [hlen, joinWith_replicate_nil]

/-- **C10** counterexample to the claim as frozen: the whitespace-only
input `"\n"` makes `decodeBase8` return `"\n"`, not the empty string. -/
theorem c10_counterexample :
    (∀ c ∈ ['\n'], jsIsWS c = true) ∧
    decodeBase8 ⟨[['a']]⟩ ['\n'] = ['\n'] ∧ (['\n'] : List Char) ≠ [] := by
  decide

/-- **C10** witness: the behaviour on the single-space input. -/
theorem c10_witness :
    decodeBase12 ⟨[['a']]⟩ [' '] = ['?'] ∧
    decodeBase8 ⟨[['a']]⟩ [' '] = List.replicate (List.count '\n' [' ']) '\n' :=
  c10_ws_only_inputs ⟨[['a']]⟩ [' '] (by decide)

theorem encodeBase8_triple {config : CipherConfig} {a b c : Char} :
    encodeBase8 config [a, b, c] =
      encodeBase8 config [a] ++ encodeBase8 config [b] ++ encodeBase8 config [c] := by
  simp [encodeBase8]

/-- **C8** (amended): for a configuration with at least 8 distinct notes,
each nonempty, whitespace-free and distinct from `"/"`: encoding and
decoding preserve `"A B"` and `"A\nB"`, encoding a single space yields
exactly the token sequence `["/"]`, and decoding the token `"/"` yields
`" "`. -/
theorem c8_space_newline_fidelity (config : CipherConfig)
    (hnd : config.notes.Nodup) (hlen : 8 ≤ config.notes.length)
    (hgood : ∀ t ∈ config.notes, t ≠ [] ∧ t ≠ ['/'] ∧ ∀ c ∈ t, jsIsWS c = false) :
    decodeBase8 config (jsJoin (encodeBase8 config ['A', ' ', 'B'])) =
      ['A', ' ', 'B'] ∧
    decodeBase8 config (jsJoin (encodeBase8 config ['A', '\n', 'B'])) =
      ['A', '\n', 'B'] ∧
    encodeBase8 config [' '] = [some ['/']] ∧
    decodeBase8 config ['/'] = [' '] := by
  have h0lt : 0 < config.notes.length := by omega
  have h1lt : 1 < config.notes.length := by omega
  have hgn0 := hgood _ (getD_mem h0lt)
  have hgn1 := hgood _ (getD_mem h1lt)
  have hni0 : noteIndex config.notes (config.notes.getD 0 []) = some 0 :=
    getD_noteIndex hnd h0lt
  have hni1 : noteIndex config.notes (config.notes.getD 1 []) = some 1 :=
    getD_noteIndex hnd h1lt
  have hA : encodeBase8 config ['A'] =
      [some (config.notes.getD 0 []), some (config.notes.getD 0 [])] := by
    rw [encodeBase8_letter (by decide),
      show (Char.toUpper 'A').toNat - 65 = 0 from by decide]
    norm_num
    rw [getElem?_eq_some_getD h0lt]
    rfl
  have hB : encodeBase8 config ['B'] =
      [some (config.notes.getD 0 []), some (config.notes.getD 1 [])] := by
    rw [encodeBase8_letter (by decide),
      show (Char.toUpper 'B').toNat - 65 = 1 from by decide]
    norm_num
    rw [getElem?_eq_some_getD h0lt, getElem?_eq_some_getD h1lt]
    exact ⟨rfl, rfl⟩
  have hgood01 : ∀ t ∈ [config.notes.getD 0 [], config.notes.getD 0 []],
      t ≠ [] ∧ ∀ ch ∈ t, jsIsWS ch = false := by
    intro t ht
    rcases List.mem_cons.1 ht with rfl | ht'
    · exact ⟨hgn0.1, hgn0.2.2⟩
    · rcases List.mem_cons.1 ht' with rfl | ht''
      · exact ⟨hgn0.1, hgn0.2.2⟩
      · simp at ht''
  have hgood01' : ∀ t ∈ [config.notes.getD 0 [], config.notes.getD 1 []],
      t ≠ [] ∧ ∀ ch ∈ t, jsIsWS ch = false := by
    intro t ht
    rcases List.mem_cons.1 ht with rfl | ht'
    · exact ⟨hgn0.1, hgn0.2.2⟩
    · rcases List.mem_cons.1 ht' with rfl | ht''
      · exact ⟨hgn1.1, hgn1.2.2⟩
      · simp at ht''
  have hwalkA : walkBase8 config.notes
      [config.notes.getD 0 [], config.notes.getD 0 []] = ['A'] := by
    rw [walkBase8_pair_known hgn0.2.1 hgn0.1 hgn0.1 hni0 hni0, walkBase8_nil]
    decide
  have hwalkB : walkBase8 config.notes
      [config.notes.getD 0 [], config.notes.getD 1 []] = ['B'] := by
    rw [walkBase8_pair_known hgn0.2.1 hgn0.1 hgn1.1 hni0 hni1, walkBase8_nil]
    decide
  refine ⟨?_, ?_, encodeBase8_space, ?_⟩
  · have encode1 : encodeBase8 config ['A', ' ', 'B'] =
        [some (config.notes.getD 0 []), some (config.notes.getD 0 []),
         some ['/'], some (config.notes.getD 0 []), some (config.notes.getD 1 [])] := by
      rw [encodeBase8_triple, hA, encodeBase8_space, hB]
      rfl
    have hgoodtok : ∀ t ∈ [config.notes.getD 0 [], config.notes.getD 0 [],
        ['/'], config.notes.getD 0 [], config.notes.getD 1 []],
        t ≠ [] ∧ ∀ ch ∈ t, jsIsWS ch = false := by
      intro t ht
      rcases List.mem_cons.1 ht with rfl | ht
      · exact ⟨hgn0.1, hgn0.2.2⟩
      rcases List.mem_cons.1 ht with rfl | ht
      · exact ⟨hgn0.1, hgn0.2.2⟩
      rcases List.mem_cons.1 ht with rfl | ht
      · exact ⟨by simp, by decide⟩
      rcases List.mem_cons.1 ht with rfl | ht
      · exact ⟨hgn0.1, hgn0.2.2⟩
      rcases List.mem_cons.1 ht with rfl | ht
      · exact ⟨hgn1.1, hgn1.2.2⟩
      simp at ht
    rw [encode1]
    rw [show jsJoin [some (config.notes.getD 0 []), some (config.notes.getD 0 []),
        some ['/'], some (config.notes.getD 0 []), some (config.notes.getD 1 [])] =
        joinWith [' '] [config.notes.getD 0 [], config.notes.getD 0 [],
          ['/'], config.notes.getD 0 [], config.notes.getD 1 []] from rfl]
    rw [decodeBase8_single_line (fun hmem => nl_not_mem_joinWith hgoodtok hmem)]
    rw [tokenize8_joinWith (by simp) hgoodtok]
    rw [walkBase8_pair_known hgn0.2.1 hgn0.1 hgn0.1 hni0 hni0, walkBase8_slash,
      walkBase8_pair_known hgn0.2.1 hgn0.1 hgn1.1 hni0 hni1, walkBase8_nil]
    decide
  · have encode2 : encodeBase8 config ['A', '\n', 'B'] =
        [some (config.notes.getD 0 []), some (config.notes.getD 0 []),
         some ['\n'], some (config.notes.getD 0 []), some (config.notes.getD 1 [])] := by
      rw [encodeBase8_triple, hA, encodeBase8_newline, hB]
      rfl
    rw [encode2]
    rw [show jsJoin [some (config.notes.getD 0 []), some (config.notes.getD 0 []),
        some ['\n'], some (config.notes.getD 0 []), some (config.notes.getD 1 [])] =
        joinWith [' '] [config.notes.getD 0 [], config.notes.getD 0 [],
          ['\n'], config.notes.getD 0 [], config.notes.getD 1 []] from rfl]
    have hsplit : joinWith [' '] [config.notes.getD 0 [], config.notes.getD 0 [],
        ['\n'], config.notes.getD 0 [], config.notes.getD 1 []] =
        (joinWith [' '] [config.notes.getD 0 [], config.notes.getD 0 []] ++ [' ']) ++
          '\n' :: (' ' :: joinWith [' ']
            [config.notes.getD 0 [], config.notes.getD 1 []]) := by
      simp [joinWith, List.append_assoc]
    rw [hsplit]
    have hnl1 : '\n' ∉ joinWith [' ']
        [config.notes.getD 0 [], config.notes.getD 0 []] ++ [' '] := by
      intro hmem
      rcases List.mem_append.1 hmem with h | h
      · exact nl_not_mem_joinWith hgood01 h
      · simp at h
    rw [decodeBase8_line_cons hnl1]
    rw [tokenize8_joinWith_spaceR (by simp) hgood01, hwalkA]
    have hnl2 : '\n' ∉ ' ' :: joinWith [' ']
        [config.notes.getD 0 [], config.notes.getD 1 []] := by
      intro hmem
      rcases List.mem_cons.1 hmem with h | h
      · exact absurd h (by decide)
      · exact nl_not_mem_joinWith hgood01' h
    rw [decodeBase8_single_line hnl2]
    rw [tokenize8_joinWith_spaceL (by simp) hgood01', hwalkB]
    rfl
  · rw [decodeBase8_single_line (by decide)]
    rw [show tokenize8 ['/'] = [['/']] from by decide]
    rw [walkBase8_single, if_pos rfl]

/-- **C8** counterexample to the claim as frozen: with eight distinct notes
of which the first is the sentinel `"/"`, encoding and decoding `"A B"`
yields `"    ?"` instead of `"A B"`. -/
theorem c8_counterexample :
    ([['/'], ['a'], ['b'], ['c'], ['d'], ['e'], ['f'], ['g']] :
        List (List Char)).Nodup ∧
    8 ≤ ([['/'], ['a'], ['b'], ['c'], ['d'], ['e'], ['f'], ['g']] :
        List (List Char)).length ∧
    decodeBase8 ⟨[['/'], ['a'], ['b'], ['c'], ['d'], ['e'], ['f'], ['g']]⟩
        (jsJoin (encodeBase8
          ⟨[['/'], ['a'], ['b'], ['c'], ['d'], ['e'], ['f'], ['g']]⟩
          ['A', ' ', 'B'])) ≠ ['A', ' ', 'B'] := by
  decide

/-- **C8** witness: the space round trip and the `"/"` decoding evaluated
on a concrete configuration. -/
theorem c8_witness :
    decodeBase8 ⟨[['C'], ['D'], ['E'], ['F'], ['G'], ['A'], ['B'], ['H']]⟩
        (jsJoin (encodeBase8
          ⟨[['C'], ['D'], ['E'], ['F'], ['G'], ['A'], ['B'], ['H']]⟩
          ['A', ' ', 'B'])) = ['A', ' ', 'B'] ∧
    decodeBase8 ⟨[['C'], ['D'], ['E'], ['F'], ['G'], ['A'], ['B'], ['H']]⟩ ['/'] =
      [' '] :=
  ⟨(c8_space_newline_fidelity ⟨[['C'], ['D'], ['E'], ['F'], ['G'], ['A'], ['B'], ['H']]⟩
      (by decide) (by decide) (by decide)).1,
   (c8_space_newline_fidelity ⟨[['C'], ['D'], ['E'], ['F'], ['G'], ['A'], ['B'], ['H']]⟩
      (by decide) (by decide) (by decide)).2.2.2⟩

end MelodyCipher
